import Mathlib

/-!
Verification of the drive-by session-repository engine.

This development shallowly embeds the core of the repository:
* the `GitRepo` projection state machine (`src/git-repo.ts`),
* the `JobQueue` serialization primitive (`src/job-queue.ts`),
* the git output parser, change-range calculator and `save` helper
  (`src/git-helpers.ts`).

Asynchronous store effects (the results of `git` subprocess calls) are
passed to the embedded operations as explicit parameters; a thrown JS
error is modelled as an explicit error component of the result, and a
JS `-1` index sentinel is modelled as `Option.none`.
-/

/-- Type `FileChangeDetail` from `git-helpers.ts`. -/
structure FileChangeDetail where
  fileName : String
  changeDetail : String
deriving DecidableEq, Repr

/-- Type `Commit` from `git-helpers.ts`. The JS `Date` field is modelled by the
raw date string handed to `new Date(...)`. -/
structure Commit where
  sha : String
  author : String
  changedFiles : List FileChangeDetail
  changeSummary : String
  date : String
  message : String
deriving DecidableEq, Repr

/-- Type `Tag` from `git-helpers.ts`. The `annotation` field of the source is
named `annot` here. -/
structure Tag where
  tagName : String
  annot : String
  commitSha : String
deriving DecidableEq, Repr

/-- Type `GitRepoState` from `git-repo.ts`: the published projection.
The lodash dictionaries `commits` and `tags` are modelled as functions
from keys to optional values. -/
structure GitRepoState where
  commits : String → Option Commit
  tags : String → Option Tag
  shas : List String
  head : Option String
  branchHead : Option String
  workingDirModified : Bool

/-- JS `Array.prototype.findIndex`-style search: index of the first
element satisfying `p`; the JS `-1` result is modelled as `none`. -/
def findIdxOpt (p : String → Bool) : List String → Option Nat
  | [] => none
  | x :: xs => if p x then some 0 else (findIdxOpt p xs).map (· + 1)

/-- JS `Array.prototype.indexOf` (`-1` modelled as `none`). -/
def jsIndexOf (xs : List String) (x : String) : Option Nat :=
  findIdxOpt (fun y => y = x) xs

/-- lodash `findIndex(xs, p, start)`: first index `≥ start` whose element
satisfies `p` (`-1` modelled as `none`). -/
def findIdxFrom (p : String → Bool) (xs : List String) (start : Nat) : Option Nat :=
  (findIdxOpt p (xs.drop start)).map (fun k => start + k)

/-- JS string truthiness for a `string | undefined` value:
`undefined` and `""` are falsy. -/
def strTruthy : Option String → Bool
  | some s => s.data ≠ []
  | none => false

namespace GitRepo

/-- Method `getAnnotation` of `GitRepo` (renamed `getAnnot`): the stored tag's
annotation text for a commit, if any. -/
def getAnnot (st : GitRepoState) (commitSha : String) : Option String :=
  match st.tags commitSha with
  | some tag => some tag.annot
  | none => none

/-- The `!!this.getAnnotation(sha)` truthiness test used by the section
queries in `git-repo.ts`. -/
def hasAnnot (st : GitRepoState) (sha : String) : Bool :=
  strTruthy (getAnnot st sha)

/-- Method `getSectionCommitCount` of `GitRepo` from `git-repo.ts`. -/
def getSectionCommitCount (st : GitRepoState) (sha : String) : Nat :=
  if !(hasAnnot st sha) then 0
  else
    match jsIndexOf st.shas sha with
    | none => 0
    | some startIdx =>
      match findIdxFrom (fun s => hasAnnot st s) st.shas (startIdx + 1) with
      | none => st.shas.length - startIdx
      | some nextSectionStartIdx => nextSectionStartIdx - startIdx

/-- Helper for `createSlug`: the character class `[a-z0-9]`. -/
def isSlugChar (c : Char) : Bool :=
  (97 ≤ c.toNat && c.toNat ≤ 122) || (48 ≤ c.toNat && c.toNat ≤ 57)

/-- JS `String.prototype.toLowerCase`, modelled at the ASCII level
(uppercase ASCII letters are shifted by 32, all else unchanged). -/
def jsToLowerChar (c : Char) : Char :=
  if 65 ≤ c.toNat ∧ c.toNat ≤ 90 then Char.ofNat (c.toNat + 32) else c

/-- JS `String.prototype.split` with a single-character separator class:
every separator character cuts, so adjacent separators yield empty
pieces, and the empty input yields one empty piece. -/
def splitOnPred (p : Char → Bool) : List Char → List (List Char)
  | [] => [[]]
  | c :: cs =>
    if p c then [] :: splitOnPred p cs
    else
      match splitOnPred p cs with
      | [] => [[c]]
      | r :: rs => (c :: r) :: rs

/-- JS `Array.prototype.join("-")`. -/
def joinHyphen : List (List Char) → List Char
  | [] => []
  | [x] => x
  | x :: xs => x ++ '-' :: joinHyphen xs

/-- Method `createSlug` of `GitRepo` from `git-repo.ts`:
`message.toLowerCase().split(/[^a-z0-9]/g).filter(part => !!part).join("-")`. -/
def createSlug (message : String) : String :=
  String.mk (joinHyphen
    (((splitOnPred (fun c => !isSlugChar c) (message.data.map jsToLowerChar))).filter
      (fun part => part ≠ [])))

/-- The kind of checkout command `GitRepo.restoreCommit` issues against
the backing store. -/
inductive CheckoutKind
  | toBranch
  | toSha (sha : String)
deriving DecidableEq, Repr

/-- Method `restoreCommit` of `GitRepo` from `git-repo.ts`: publishes the previous
state with `head := sha` and `workingDirModified := false`, after issuing
either a restore-to-branch (when `branchHead === sha`) or a detached
checkout of `sha`. -/
def restoreCommit (st : GitRepoState) (sha : String) : GitRepoState × CheckoutKind :=
  ({ st with workingDirModified := false, head := some sha },
   if st.branchHead = some sha then .toBranch else .toSha sha)

/-- Result of a navigation operation: the projection state left published
(the pre-state when nothing is published before an error or a no-op),
the checkout issued against the store, if any, and the thrown error
message, if any. -/
structure NavOutcome where
  state : GitRepoState
  checkout : Option CheckoutKind
  error : Option String

/-- Method `revertToPreviousCommit` of `GitRepo` from `git-repo.ts`. A thrown
`Error("BLARG")` is modelled as `error := some "BLARG"` with the
projection left at the pre-state (no publish precedes the throw). -/
def revertToPreviousCommit (st : GitRepoState) : NavOutcome :=
  match st.head with
  | none => ⟨st, none, none⟩
  | some head =>
    match jsIndexOf st.shas head with
    | none => ⟨st, none, some "BLARG"⟩
    | some idx =>
      if 1 ≤ idx then
        let previousSha := st.shas.getD (idx - 1) ""
        let r := restoreCommit st previousSha
        ⟨r.1, some r.2, none⟩
      else ⟨st, none, none⟩

/-- Method `advanceToNextCommit` of `GitRepo` from `git-repo.ts`. -/
def advanceToNextCommit (st : GitRepoState) : NavOutcome :=
  match st.head with
  | none => ⟨st, none, none⟩
  | some head =>
    match jsIndexOf st.shas head with
    | none => ⟨st, none, some "BLARG"⟩
    | some idx =>
      if idx + 1 < st.shas.length then
        let nextSha := st.shas.getD (idx + 1) ""
        let r := restoreCommit st nextSha
        ⟨r.1, some r.2, none⟩
      else ⟨st, none, none⟩

/-- Method `save` of `GitRepo` from `git-repo.ts`. The asynchronous store results
are parameters: `saved` is the boolean result of the `git-helpers.ts`
`save` (`false` = nothing to commit), `newHead` the subsequent
`getBranchHead` result, and `newCommit` the fetched commit. The result
is the published projection (the pre-state when nothing is published)
together with a thrown error message, if any. -/
def save (st : GitRepoState) (saved : Bool) (newHead : Option String)
    (newCommit : Commit) : GitRepoState × Option String :=
  if st.branchHead = st.head then
    if saved then
      match newHead with
      | none => (st, some "BLARGH")
      | some h =>
        ({ commits := fun k => if k = newCommit.sha then some newCommit else st.commits k
           tags := st.tags
           shas := st.shas ++ [h]
           head := some h
           branchHead := some h
           workingDirModified := false }, none)
    else (st, none)
  else (st, none)

end GitRepo

namespace JobQueue

/-- The observable fields of a `JobQueue` (`job-queue.ts`) together with
the job body currently on the drain loop's stack: `jobs` is the pending
list, `running` the drain-loop flag, and `executing` the job whose
`await job()` has begun but not yet returned. Jobs are identified by
numeric ids. -/
structure QueueModel where
  jobs : List Nat
  running : Bool
  executing : Option Nat
deriving DecidableEq, Repr

/-- Events observable in an execution of a `JobQueue`. -/
inductive QEvent
  | push (id : Nat)
  | jobBegin (id : Nat)
  | jobEnd (id : Nat)
  | loopExit
deriving DecidableEq, Repr

/-- The empty, idle queue (`jobs = []`, `running = false`). -/
def initQueue : QueueModel := ⟨[], false, none⟩

/-- Small-step semantics of `job-queue.ts` under JavaScript's
single-threaded event loop, as a reachability relation on queue states
paired with the event trace so far.

* `push`: `push(job)` appends to `this.jobs` and calls `ensureRunning`,
  which either returns (already running) or sets `running := true` and
  starts the drain loop; in both cases `running` is `true` afterwards.
* `jobBegin`: the drain loop, when it is running and not currently
  awaiting a body, shifts the front job and invokes it. Because the loop
  body is `await job()`, no second body can begin while `executing` is
  occupied; this captures JS's sequencing of the single drain loop.
* `jobEnd`: the awaited body returns; control is back in the loop.
* `loopExit`: `shift()` on an empty list ends the loop, `running := false`. -/
inductive QueueReach : QueueModel → List QEvent → Prop
  | init : QueueReach initQueue []
  | push (s : QueueModel) (tr : List QEvent) (id : Nat) :
      QueueReach s tr →
      QueueReach ⟨s.jobs ++ [id], true, s.executing⟩ (tr ++ [.push id])
  | jobBegin (s : QueueModel) (tr : List QEvent) (id : Nat) (rest : List Nat) :
      QueueReach s tr → s.running = true → s.executing = none →
      s.jobs = id :: rest →
      QueueReach ⟨rest, true, some id⟩ (tr ++ [.jobBegin id])
  | jobEnd (s : QueueModel) (tr : List QEvent) (id : Nat) :
      QueueReach s tr → s.executing = some id →
      QueueReach ⟨s.jobs, s.running, none⟩ (tr ++ [.jobEnd id])
  | loopExit (s : QueueModel) (tr : List QEvent) :
      QueueReach s tr → s.running = true → s.executing = none →
      s.jobs = [] →
      QueueReach ⟨[], false, none⟩ (tr ++ [.loopExit])

/-- Ids pushed, in trace order. -/
def pushedIds : List QEvent → List Nat
  | [] => []
  | .push id :: tr => id :: pushedIds tr
  | _ :: tr => pushedIds tr

/-- Ids whose bodies began executing, in trace order. -/
def begunIds : List QEvent → List Nat
  | [] => []
  | .jobBegin id :: tr => id :: begunIds tr
  | _ :: tr => begunIds tr

/-- Ids whose bodies ran to completion, in trace order. -/
def endedIds : List QEvent → List Nat
  | [] => []
  | .jobEnd id :: tr => id :: endedIds tr
  | _ :: tr => endedIds tr

/-- Outcome of one job body: normal return or a thrown error. -/
inductive JobOutcome
  | ok
  | err (msg : String)
deriving DecidableEq, Repr

/-- A job together with the outcome its body produces when run. -/
structure JobSpec where
  id : Nat
  outcome : JobOutcome
deriving DecidableEq, Repr

/-- What a full drain of the queue produces: the ids whose bodies were
invoked in order, the errors handed to `window.showErrorMessage` by the
drain loop's `catch`, and the value delivered to the caller awaiting
`push` (whose `await` awaits `ensureRunning`, i.e. the whole drain). -/
structure DrainResult where
  executed : List Nat
  reported : List (Nat × String)
  result : Except String Unit
deriving Repr

/-- The drain loop of `job-queue.ts` (`ensureRunning`): each job is run
inside `try { await job() } catch (e) { window.showErrorMessage(...) }`,
so an error is shown globally and the loop proceeds; `ensureRunning`
itself always resolves normally. -/
def jobQueueDrain : List JobSpec → DrainResult
  | [] => ⟨[], [], .ok ()⟩
  | j :: rest =>
    let r := jobQueueDrain rest
    match j.outcome with
    | .ok => ⟨j.id :: r.executed, r.reported, r.result⟩
    | .err m => ⟨j.id :: r.executed, (j.id, m) :: r.reported, r.result⟩

end JobQueue

/-- Type `Position` from `git-helpers.ts`. -/
structure Position where
  line : Nat
  character : Nat
deriving DecidableEq, Repr

/-- Type `Range` from `git-helpers.ts`. -/
structure Range where
  start : Position
  «end» : Position
deriving DecidableEq, Repr

/-- Type `ChangeRanges` from `git-helpers.ts`. -/
structure ChangeRanges where
  before : Range
  after : Range
deriving DecidableEq, Repr

/-- One hunk of the parsed unified diff (the `IUniDiff` hunks consumed by
`getChangeRanges`): 1-based start lines of the old and new side, and the
raw hunk lines with their `+`/`-`/space prefixes. -/
structure Hunk where
  oldStart : Nat
  newStart : Nat
  lines : List String
deriving DecidableEq, Repr

/-- JS `line[0] === c` (false on the empty string, whose `line[0]` is
`undefined`). -/
def firstCharIs (s : String) (c : Char) : Bool :=
  s.data.head? = some c

/-- A unified-diff addition line. -/
def isAddLine (s : String) : Bool := firstCharIs s '+'

/-- A unified-diff deletion line. -/
def isDelLine (s : String) : Bool := firstCharIs s '-'

/-- The hunk lines kept by `getChangeRanges` (the "no newline at end of
file" marker is stripped). -/
def hunkKeptLines (h : Hunk) : List String :=
  h.lines.filter (fun l => l ≠ "\\ No newline at end of file")

/-- The `newLines` list in `getChangeRanges`: every kept line that is not a pure
deletion. -/
def hunkNewLines (h : Hunk) : List String :=
  (hunkKeptLines h).filter (fun l => !(isDelLine l))

/-- The `oldLines` list in `getChangeRanges`: every kept line that is not a pure
insertion. -/
def hunkOldLines (h : Hunk) : List String :=
  (hunkKeptLines h).filter (fun l => !(isAddLine l))

/-- lodash `findLastIndex` (`-1` modelled as `none`). -/
def findLastIdxOpt (p : String → Bool) (xs : List String) : Option Nat :=
  (findIdxOpt p xs.reverse).map (fun k => xs.length - 1 - k)

/-- Function `getChangeRanges` from `git-helpers.ts`, with the diff already
parsed into hunks. `Except.error` models the `TypeError` the source
throws on a hunk with neither additions nor deletions (it indexes
`oldLines[-2]`); `Except.ok none` is the source's `undefined` result
when there is no hunk. -/
def getChangeRanges (hunks : List Hunk) : Except String (Option ChangeRanges) :=
  match hunks.getLast? with
  | none => .ok none
  | some hunk =>
    let newLines := hunkNewLines hunk
    let oldLines := hunkOldLines hunk
    match findIdxOpt isAddLine newLines, findIdxOpt isDelLine oldLines with
    | none, none => .error "TypeError"
    | some firstNewLineIdx, none =>
      let lastNewLineIdx := (findLastIdxOpt isAddLine newLines).getD 0
      let after : Range :=
        ⟨⟨hunk.newStart + firstNewLineIdx, 1⟩,
         ⟨hunk.newStart + lastNewLineIdx, (newLines.getD lastNewLineIdx "").length⟩⟩
      let before : Range :=
        match firstNewLineIdx with
        | 0 => ⟨⟨1, 1⟩, ⟨1, 1⟩⟩
        | k + 1 =>
          let pos : Position := ⟨hunk.oldStart + k, (newLines.getD k "").length⟩
          ⟨pos, pos⟩
      .ok (some ⟨before, after⟩)
    | some firstNewLineIdx, some firstOldLineIdx =>
      let lastNewLineIdx := (findLastIdxOpt isAddLine newLines).getD 0
      let after : Range :=
        ⟨⟨hunk.newStart + firstNewLineIdx, 1⟩,
         ⟨hunk.newStart + lastNewLineIdx, (newLines.getD lastNewLineIdx "").length⟩⟩
      let lastOldLineIdx := (findLastIdxOpt isDelLine oldLines).getD 0
      let before : Range :=
        ⟨⟨hunk.oldStart + firstOldLineIdx, 1⟩,
         ⟨hunk.oldStart + lastOldLineIdx, (oldLines.getD lastOldLineIdx "").length⟩⟩
      .ok (some ⟨before, after⟩)
    | none, some firstOldLineIdx =>
      let after : Range :=
        match firstOldLineIdx with
        | 0 => ⟨⟨1, 1⟩, ⟨1, 1⟩⟩
        | k + 1 =>
          let pos : Position := ⟨hunk.newStart + k, (oldLines.getD k "").length⟩
          ⟨pos, pos⟩
      let lastOldLineIdx := (findLastIdxOpt isDelLine oldLines).getD 0
      let before : Range :=
        ⟨⟨hunk.oldStart + firstOldLineIdx, 1⟩,
         ⟨hunk.oldStart + lastOldLineIdx, (oldLines.getD lastOldLineIdx "").length⟩⟩
      .ok (some ⟨before, after⟩)

/-- The parser states of `parseCommitsSummary` in `git-helpers.ts`. -/
inductive PState
  | begin
  | author
  | date
  | messageBegin
  | messageMiddle
  | fileset
  | «end»
deriving DecidableEq, Repr

/-- The in-progress commit record of `parseCommitsSummary`
(`Partial<Commit>` in the source: fields not yet seen are `undefined`,
modelled as `none`; the date is kept as the raw matched string). -/
structure ParsedCommit where
  sha : Option String := none
  author : Option String := none
  date : Option String := none
  message : String := ""
  changedFiles : List FileChangeDetail := []
  changeSummary : Option String := none
deriving DecidableEq, Repr

/-- The whole parser state: current automaton state, in-progress record,
and the records accepted so far (in discovery order, newest first). -/
structure ParserState where
  state : PState := .begin
  commit : ParsedCommit := {}
  commits : List ParsedCommit := []
deriving DecidableEq, Repr

/-- JS `String.prototype.startsWith`, at the character-list level. -/
def strStartsWith (line pre : String) : Bool :=
  line.data.take pre.data.length = pre.data

/-- An ASCII whitespace character (model of the characters JS
`String.prototype.trim` removes). -/
def isWsChar (c : Char) : Bool :=
  c = ' ' || c = '\t' || c = '\n' || c = '\r' || c = '\x0b' || c = '\x0c'

/-- JS `String.prototype.trim`, modelled at the ASCII level: leading and
trailing whitespace characters are removed. -/
def jsTrim (s : String) : String :=
  String.mk (((s.data.dropWhile isWsChar).reverse.dropWhile isWsChar).reverse)

/-- The regex `/^commit ([a-z0-9]+)$/`. -/
def matchCommitHeader (line : String) : Option String :=
  if line.data.take 7 = "commit ".data then
    let rest := line.data.drop 7
    if rest ≠ [] ∧ rest.all (fun c =>
        (97 ≤ c.toNat && c.toNat ≤ 122) || (48 ≤ c.toNat && c.toNat ≤ 57)) then
      some (String.mk rest)
    else none
  else none

/-- A regex of the form `/^pre(.*)$/`: a fixed head followed by an
arbitrary captured tail. -/
def matchHeadCapture (pre line : String) : Option String :=
  if strStartsWith line pre then some (String.mk (line.data.drop pre.data.length))
  else none

/-- The greedy regex `/^ (.+)\x7c(.+)$/` of the fileset state: a leading
space, then group 1 up to the last bar that still leaves a non-empty
group 2. -/
def matchFilesetLine (line : String) : Option (String × String) :=
  match line.data with
  | ' ' :: rest =>
    match (((List.range rest.length).filter (fun k =>
        decide (rest.getD k ' ' = '|') && decide (1 ≤ k) &&
        decide (k + 2 ≤ rest.length)))).getLast? with
    | some k => some (String.mk (rest.take k), String.mk (rest.drop (k + 1)))
    | none => none
  | _ => none

/-- The regex `/^(.*) \(new\)$/` applied to a file name: a trailing
`" (new)"` is stripped. -/
def stripNewSuffix (s : String) : String :=
  let cs := s.data
  if 6 ≤ cs.length ∧ cs.drop (cs.length - 6) = " (new)".data then
    String.mk (cs.take (cs.length - 6))
  else s

/-- JS `output.split("\n")`: cut at every newline character. -/
def splitLines (s : String) : List String :=
  (GitRepo.splitOnPred (fun c => c = '\n') s.data).map String.mk

/-- Inner function `acceptCommit` of `parseCommitsSummary`: push the in-progress
record and start a fresh one. -/
def acceptCommit (ps : ParserState) : ParserState :=
  { ps with commits := ps.commits ++ [ps.commit], commit := {} }

/-- One line of `parseCommitsSummary`'s loop. `Except.error` models the
exceptions thrown by `assertExists` and by the end state's check. -/
def parseLine (ps : ParserState) (line : String) : Except String ParserState :=
  match ps.state with
  | .begin =>
    match matchCommitHeader line with
    | none => .error "Could not find thing"
    | some sha =>
      .ok { ps with state := .author, commit := { ps.commit with sha := some sha } }
  | .author =>
    if strStartsWith line "Merge: " then .ok ps
    else
      match matchHeadCapture "Author: " line with
      | none => .error "Could not find thing"
      | some a =>
        .ok { ps with state := .date, commit := { ps.commit with author := some a } }
  | .date =>
    match matchHeadCapture "Date: " line with
    | none => .error "Could not find thing"
    | some d =>
      .ok { ps with state := .messageBegin, commit := { ps.commit with date := some d } }
  | .messageBegin => .ok { ps with state := .messageMiddle }
  | .messageMiddle =>
    if line = "" then .ok { ps with state := .fileset }
    else
      .ok { ps with commit :=
        { ps.commit with message := ps.commit.message ++ jsTrim line ++ "\n" } }
  | .fileset =>
    match matchFilesetLine line with
    | some (g1, g2) =>
      .ok { ps with commit :=
        { ps.commit with changedFiles :=
            ps.commit.changedFiles ++ [⟨stripNewSuffix (jsTrim g1), jsTrim g2⟩] } }
    | none =>
      match matchCommitHeader line with
      | some sha =>
        let ps' := acceptCommit ps
        .ok { ps' with state := .author, commit := { ps'.commit with sha := some sha } }
      | none =>
        .ok { ps with
                state := .«end»,
                commit := { ps.commit with changeSummary := some (jsTrim line) } }
  | .«end» =>
    if line ≠ "" then
      .error ("Empty line expected after change summary but got: " ++ line)
    else .ok { (acceptCommit ps) with state := .begin }

/-- The loop of `parseCommitsSummary` over all lines. -/
def parseLines : ParserState → List String → Except String ParserState
  | ps, [] => .ok ps
  | ps, l :: ls =>
    match parseLine ps l with
    | .error e => .error e
    | .ok ps' => parseLines ps' ls

/-- Function `parseCommitsSummary` from `git-helpers.ts`: run the line automaton,
accept a trailing in-progress record whose `sha` is truthy, and reverse
into oldest-first order. -/
def parseCommitsSummary (output : String) : Except String (List ParsedCommit) :=
  match parseLines {} (splitLines output) with
  | .error e => .error e
  | .ok ps =>
    let final := if strTruthy ps.commit.sha then ps.commits ++ [ps.commit] else ps.commits
    .ok final.reverse

/-- Whether the sha at index `k` of the timeline carries a (truthy)
annotation. -/
def annotAt (st : GitRepoState) (k : Nat) : Bool :=
  match st.shas[k]? with
  | some y => GitRepo.hasAnnot st y
  | none => false

/-- Extracts the `after` range from a `getChangeRanges` result, when the
call succeeded and produced ranges. -/
def afterOf : Except String (Option ChangeRanges) → Option Range
  | .ok (some r) => some r.after
  | _ => none

/-- Extracts the `before` range from a `getChangeRanges` result. -/
def beforeOf : Except String (Option ChangeRanges) → Option Range
  | .ok (some r) => some r.before
  | _ => none

/-- A projection with empty store contents, used as a base for concrete
test states. -/
def baseState : GitRepoState :=
  { commits := fun _ => none
    tags := fun _ => none
    shas := []
    head := none
    branchHead := none
    workingDirModified := false }

/-- The 12-snapshot timeline of §8 of the spec, with annotated snapshots
at indices 2, 5 and 9. -/
def sectionExample : GitRepoState :=
  { baseState with
      tags := fun k =>
        if k = "s02" then some ⟨"sec-two", "sec two", "s02"⟩
        else if k = "s05" then some ⟨"sec-five", "sec five", "s05"⟩
        else if k = "s09" then some ⟨"sec-nine", "sec nine", "s09"⟩
        else none
      shas := ["s00", "s01", "s02", "s03", "s04", "s05",
               "s06", "s07", "s08", "s09", "s10", "s11"]
      head := some "s06"
      branchHead := some "s11" }

/-- A state whose working directory is marked modified, exercising the
`workingDirModified` reset of `restoreCommit`. -/
def modifiedState : GitRepoState :=
  { baseState with
      shas := ["a", "b"]
      head := some "b"
      branchHead := some "b"
      workingDirModified := true }

/-- A two-snapshot state whose head is the first snapshot. -/
def headAtFirst : GitRepoState :=
  { baseState with shas := ["a", "b"], head := some "a", branchHead := some "b" }

/-- A two-snapshot state whose head is the last snapshot. -/
def headAtLast : GitRepoState :=
  { baseState with shas := ["a", "b"], head := some "b", branchHead := some "b" }

/-- A diverged state: the head sha does not occur in the timeline. -/
def divergedState : GitRepoState :=
  { baseState with shas := ["a", "b"], head := some "z", branchHead := some "b" }

/-- A fresh commit used to exercise `save`. -/
def saveExCommit : Commit :=
  { sha := "c1", author := "Toby", changedFiles := [], changeSummary := "",
    date := "Mon", message := "Update by Drive By." }

/-- A concrete two-job execution: push 0, run it, push 1, run it, exit. -/
def qExampleTrace : List JobQueue.QEvent :=
  [.push 0, .jobBegin 0, .jobEnd 0, .push 1, .jobBegin 1, .jobEnd 1, .loopExit]

theorem findIdxOpt_eq_none (p : String → Bool) (l : List String)
    (h : ∀ (k : Nat) (z : String), l[k]? = some z → p z = false) :
    findIdxOpt p l = none := by
  induction l with
  | nil => rfl
  | cons a t ih =>
    have ha : p a = false := h 0 a (by simp)
    have ht : findIdxOpt p t = none :=
      ih (fun k z hz => h (k + 1) z (by simpa using hz))
    simp [findIdxOpt, ha, ht]

theorem findIdxOpt_eq_some (p : String → Bool) (l : List String) (m : Nat) (x : String)
    (hget : l[m]? = some x) (hx : p x = true)
    (hmin : ∀ (k : Nat), k < m → ∀ (z : String), l[k]? = some z → p z = false) :
    findIdxOpt p l = some m := by
  induction l generalizing m with
  | nil => simp at hget
  | cons a t ih =>
    cases m with
    | zero =>
      have : a = x := by simpa using hget
      subst this
      simp [findIdxOpt, hx]
    | succ m =>
      have ha : p a = false := hmin 0 (Nat.succ_pos m) a (by simp)
      have ht : findIdxOpt p t = some m :=
        ih m (by simpa using hget)
          (fun k hk z hz => hmin (k + 1) (Nat.succ_lt_succ hk) z (by simpa using hz))
      simp [findIdxOpt, ha, ht]

theorem jsIndexOf_eq_none (l : List String) (x : String) (h : x ∉ l) :
    jsIndexOf l x = none := by
  apply findIdxOpt_eq_none
  intro k z hz
  have hzmem : z ∈ l := List.getElem?_mem hz
  have : z ≠ x := fun he => h (he ▸ hzmem)
  simpa using this

theorem jsIndexOf_eq_some (l : List String) (x : String) (m : Nat)
    (hget : l[m]? = some x) (hmin : ∀ (k : Nat), k < m → l[k]? ≠ some x) :
    jsIndexOf l x = some m := by
  apply findIdxOpt_eq_some _ _ _ x hget (by simp)
  intro k hk z hz
  have : z ≠ x := fun he => hmin k hk (he ▸ hz)
  simpa using this

theorem jsIndexOf_cons_self (x : String) (rest : List String) :
    jsIndexOf (x :: rest) x = some 0 := by
  simp [jsIndexOf, findIdxOpt]

theorem jsIndexOf_getLast (l : List String) (x : String)
    (hl : l.getLast? = some x) (hnd : l.Nodup) :
    jsIndexOf l x = some (l.length - 1) := by
  have hget : l[l.length - 1]? = some x := by
    rw [← List.getLast?_eq_getElem?]; exact hl
  apply jsIndexOf_eq_some _ _ _ hget
  intro k hk hkx
  have hlen : 0 < l.length := by
    cases l with
    | nil => simp at hl
    | cons a t => simp
  have hklen : k < l.length := by omega
  have := List.getElem?_inj hklen hnd (hkx.trans hget.symm)
  omega

theorem findIdxFrom_eq_none (p : String → Bool) (l : List String) (start : Nat)
    (h : ∀ (k : Nat), start ≤ k → k < l.length → ∀ (z : String), l[k]? = some z → p z = false) :
    findIdxFrom p l start = none := by
  unfold findIdxFrom
  rw [findIdxOpt_eq_none]
  · rfl
  · intro k z hz
    have hz' : l[start + k]? = some z := by
      rw [← List.getElem?_drop]; exact hz
    have hlt : start + k < l.length := by
      by_contra hge
      rw [List.getElem?_eq_none (by omega)] at hz'
      exact Option.noConfusion hz'
    exact h (start + k) (Nat.le_add_right _ _) hlt z hz'

theorem findIdxFrom_eq_some (p : String → Bool) (l : List String) (start j : Nat)
    (hsj : start ≤ j) (y : String) (hget : l[j]? = some y) (hy : p y = true)
    (hmin : ∀ (k : Nat), start ≤ k → k < j → ∀ (z : String), l[k]? = some z → p z = false) :
    findIdxFrom p l start = some j := by
  unfold findIdxFrom
  rw [findIdxOpt_eq_some _ _ (j - start) y]
  · simp; omega
  · rw [List.getElem?_drop]
    have : start + (j - start) = j := by omega
    rw [this]; exact hget
  · exact hy
  · intro k hk z hz
    rw [List.getElem?_drop] at hz
    exact hmin (start + k) (Nat.le_add_right _ _) (by omega) z hz

/-- C1: `GitRepo.save` mutates the projection only when `head` equals
`branchHead` and the backing-store commit succeeds; in that case exactly
one new sha is appended to `shas` and both `head` and `branchHead`
become that sha; when `head` differs from `branchHead`, or when the
store reports nothing to commit, the projection is returned unchanged. -/
theorem save_spec (st : GitRepoState) (saved : Bool) (newHead : Option String)
    (nc : Commit) :
    (st.branchHead ≠ st.head → GitRepo.save st saved newHead nc = (st, none)) ∧
    (saved = false → GitRepo.save st saved newHead nc = (st, none)) ∧
    (∀ h : String, st.branchHead = st.head → saved = true → newHead = some h →
      GitRepo.save st saved newHead nc =
        ({ commits := fun k => if k = nc.sha then some nc else st.commits k
           tags := st.tags
           shas := st.shas ++ [h]
           head := some h
           branchHead := some h
           workingDirModified := false }, none)) := by
  refine ⟨?_, ?_, ?_⟩
  · intro hne
    simp [GitRepo.save, hne]
  · intro hs
    subst hs
    simp [GitRepo.save]
  · intro h heq hs hnh
    subst hs; subst hnh
    simp [GitRepo.save, heq]

theorem save_spec_witness :
    GitRepo.save baseState true (some "c1") saveExCommit =
      ({ commits := fun k => if k = saveExCommit.sha then some saveExCommit
                             else baseState.commits k
         tags := baseState.tags
         shas := baseState.shas ++ ["c1"]
         head := some "c1"
         branchHead := some "c1"
         workingDirModified := false }, none) :=
  (save_spec baseState true (some "c1") saveExCommit).2.2 "c1" rfl rfl rfl

/-- C4 counterexample: on a state whose working directory is marked
modified, `restoreCommit` changes more than the `head` field — it also
resets `workingDirModified` to `false`, so the result is not the
pre-state with only `head` replaced. -/
theorem restoreCommit_not_head_only :
    (GitRepo.restoreCommit modifiedState "a").1 ≠ { modifiedState with head := some "a" } := by
  intro h
  have h2 := congrArg GitRepoState.workingDirModified h
  simp [GitRepo.restoreCommit, modifiedState, baseState] at h2

/-- C4 (amended): `restoreCommit sha` updates `head` to `sha` and resets
`workingDirModified` to `false`; `branchHead`, `shas`, the commit map
and the tag map are unchanged, and no other field changes. -/
theorem restoreCommit_frame (st : GitRepoState) (sha : String) :
    (GitRepo.restoreCommit st sha).1.head = some sha ∧
    (GitRepo.restoreCommit st sha).1.workingDirModified = false ∧
    (GitRepo.restoreCommit st sha).1.branchHead = st.branchHead ∧
    (GitRepo.restoreCommit st sha).1.shas = st.shas ∧
    (GitRepo.restoreCommit st sha).1.commits = st.commits ∧
    (GitRepo.restoreCommit st sha).1.tags = st.tags :=
  ⟨rfl, rfl, rfl, rfl, rfl, rfl⟩

/-- C5: at the first snapshot `revertToPreviousCommit` is a no-op (the
projection is unchanged, no checkout is issued, no error is raised), and
at the last snapshot `advanceToNextCommit` is likewise a no-op. The
advance part assumes the timeline has no duplicate shas (snapshot ids
are content-addressed and unique). -/
theorem nav_boundary_noop (st : GitRepoState) :
    (∀ (x : String) (rest : List String), st.head = some x → st.shas = x :: rest →
        GitRepo.revertToPreviousCommit st = ⟨st, none, none⟩) ∧
    (∀ x : String, st.head = some x → st.shas.getLast? = some x → st.shas.Nodup →
        GitRepo.advanceToNextCommit st = ⟨st, none, none⟩) := by
  constructor
  · intro x rest hhead hshas
    have hidx : jsIndexOf st.shas x = some 0 := by
      rw [hshas]; exact jsIndexOf_cons_self x rest
    simp [GitRepo.revertToPreviousCommit, hhead, hidx]
  · intro x hhead hlast hnd
    have hidx : jsIndexOf st.shas x = some (st.shas.length - 1) :=
      jsIndexOf_getLast st.shas x hlast hnd
    have hlen : 0 < st.shas.length := by
      cases hs : st.shas with
      | nil => rw [hs] at hlast; simp at hlast
      | cons a t => simp [hs]
    have hnolt : ¬ (st.shas.length - 1 + 1 < st.shas.length) := by omega
    simp [GitRepo.advanceToNextCommit, hhead, hidx, hnolt]

theorem nav_boundary_noop_witness :
    GitRepo.revertToPreviousCommit headAtFirst = ⟨headAtFirst, none, none⟩ ∧
    GitRepo.advanceToNextCommit headAtLast = ⟨headAtLast, none, none⟩ :=
  ⟨(nav_boundary_noop headAtFirst).1 "a" ["b"] rfl rfl,
   (nav_boundary_noop headAtLast).2 "b" rfl rfl (by decide)⟩

/-- C6: when `head` is non-null but absent from `shas`, both
`revertToPreviousCommit` and `advanceToNextCommit` raise the
internal-consistency error (`Error("BLARG")`) and leave the projection
unchanged, with no checkout issued. -/
theorem nav_missing_head_error (st : GitRepoState) (x : String)
    (hhead : st.head = some x) (hmem : x ∉ st.shas) :
    GitRepo.revertToPreviousCommit st = ⟨st, none, some "BLARG"⟩ ∧
    GitRepo.advanceToNextCommit st = ⟨st, none, some "BLARG"⟩ := by
  have hidx : jsIndexOf st.shas x = none := jsIndexOf_eq_none st.shas x hmem
  constructor
  · simp [GitRepo.revertToPreviousCommit, hhead, hidx]
  · simp [GitRepo.advanceToNextCommit, hhead, hidx]

theorem nav_missing_head_error_witness :
    GitRepo.revertToPreviousCommit divergedState = ⟨divergedState, none, some "BLARG"⟩ ∧
    GitRepo.advanceToNextCommit divergedState = ⟨divergedState, none, some "BLARG"⟩ :=
  nav_missing_head_error divergedState "z" rfl (by decide)

/-- C3 counterexample: with a first job that throws `"boom"`, the value
delivered to the caller awaiting `push` is a normal resolution, not the
error — `ensureRunning`'s `catch` hands the error to the global error
display (`window.showErrorMessage`) instead of rejecting the caller's
await. -/
theorem jobQueue_error_not_rejected :
    (JobQueue.jobQueueDrain [⟨0, .err "boom"⟩, ⟨1, .ok⟩]).result = .ok () ∧
    (JobQueue.jobQueueDrain [⟨0, .err "boom"⟩, ⟨1, .ok⟩]).result ≠ .error "boom" ∧
    (JobQueue.jobQueueDrain [⟨0, .err "boom"⟩, ⟨1, .ok⟩]).reported = [(0, "boom")] := by
  refine ⟨rfl, ?_, rfl⟩
  intro h
  exact Except.noConfusion h

/-- C3 (amended): a job whose body throws does not stop the queue —
every pushed job's body is still invoked, in order; the error is
reported via the global error display rather than to the caller awaiting
that push, whose await resolves normally. -/
theorem jobQueue_error_reported_globally (jobs : List JobQueue.JobSpec) :
    (JobQueue.jobQueueDrain jobs).result = .ok () ∧
    (JobQueue.jobQueueDrain jobs).executed = jobs.map (fun j => j.id) ∧
    (∀ j ∈ jobs, ∀ m : String, j.outcome = .err m →
        (j.id, m) ∈ (JobQueue.jobQueueDrain jobs).reported) := by
  induction jobs with
  | nil => exact ⟨rfl, rfl, by simp⟩
  | cons j rest ih =>
    obtain ⟨ihr, ihe, ihm⟩ := ih
    refine ⟨?_, ?_, ?_⟩
    · cases ho : j.outcome <;> simp [JobQueue.jobQueueDrain, ho, ihr]
    · cases ho : j.outcome <;> simp [JobQueue.jobQueueDrain, ho, ihe]
    · intro j' hj' m hm
      rcases List.mem_cons.mp hj' with he | ht
      · subst he
        simp [JobQueue.jobQueueDrain, hm]
      · have := ihm j' ht m hm
        cases ho : j.outcome <;> simp [JobQueue.jobQueueDrain, ho, this]

theorem jobQueue_error_reported_globally_witness :
    ((0 : Nat), "boom") ∈
      (JobQueue.jobQueueDrain [⟨0, .err "boom"⟩, ⟨1, .ok⟩]).reported :=
  (jobQueue_error_reported_globally [⟨0, .err "boom"⟩, ⟨1, .ok⟩]).2.2
    ⟨0, .err "boom"⟩ (by simp) "boom" rfl

/-- C9: in the `fileset` state, a line matching `/^ (.+)\x7c(.+)$/`
appends a changed-file entry whose `fileName` is the trimmed first group
with a trailing `" (new)"` suffix stripped, and whose `changeDetail` is
the trimmed second group; the parser state and the rest of the record
are otherwise unchanged. -/
theorem parseLine_fileset_spec (ps : ParserState) (line g1 g2 : String)
    (hstate : ps.state = .fileset)
    (hmatch : matchFilesetLine line = some (g1, g2)) :
    parseLine ps line = .ok { ps with commit :=
      { ps.commit with changedFiles :=
          ps.commit.changedFiles ++ [⟨stripNewSuffix (jsTrim g1), jsTrim g2⟩] } } := by
  cases ps with
  | mk s c cs =>
    simp only at hstate
    subst hstate
    simp [parseLine, hmatch]

theorem parseLine_fileset_witness :
    parseLine ⟨.fileset, {}, []⟩ " src/foo.ts (new) | 2 ++" =
      .ok ⟨.fileset,
           { changedFiles := [⟨"src/foo.ts", "2 ++"⟩] }, []⟩ :=
  (parseLine_fileset_spec ⟨.fileset, {}, []⟩ " src/foo.ts (new) | 2 ++"
    "src/foo.ts (new) " " 2 ++" rfl (by decide)).trans
    (congrArg Except.ok (by decide))

/-- C8: whenever the last hunk contains at least one addition line, the
`after` range spans from the first addition line to the last addition
line, starting at column 1 and ending at the length of the last added
raw line; in particular, on a single-line pure-addition diff the
calculator returns `before` as the single point line 1 / column 1 and
`after` spanning the full inserted line. -/
theorem getChangeRanges_addition_spec :
    (∀ (hunks : List Hunk) (hunk : Hunk) (i j : Nat),
        hunks.getLast? = some hunk →
        findIdxOpt isAddLine (hunkNewLines hunk) = some i →
        findLastIdxOpt isAddLine (hunkNewLines hunk) = some j →
        afterOf (getChangeRanges hunks) =
          some ⟨⟨hunk.newStart + i, 1⟩,
                ⟨hunk.newStart + j, ((hunkNewLines hunk).getD j "").length⟩⟩) ∧
    (getChangeRanges [⟨1, 1, ["+hello"]⟩] =
      .ok (some ⟨⟨⟨1, 1⟩, ⟨1, 1⟩⟩, ⟨⟨1, 1⟩, ⟨1, 6⟩⟩⟩)) := by
  constructor
  · intro hunks hunk i j hlast hfirst hlastidx
    rcases hold : findIdxOpt isDelLine (hunkOldLines hunk) with _ | k
    · simp [getChangeRanges, hlast, hfirst, hlastidx, hold, afterOf]
    · simp [getChangeRanges, hlast, hfirst, hlastidx, hold, afterOf]
  · rfl

theorem getChangeRanges_addition_witness :
    afterOf (getChangeRanges [⟨1, 1, ["+hello"]⟩]) =
      some ⟨⟨1 + 0, 1⟩, ⟨1 + 0, ((hunkNewLines ⟨1, 1, ["+hello"]⟩).getD 0 "").length⟩⟩ :=
  getChangeRanges_addition_spec.1 [⟨1, 1, ["+hello"]⟩] ⟨1, 1, ["+hello"]⟩ 0 0
    rfl (by decide) (by decide)

/-- C7: for an annotated sha whose first occurrence in `shas` is index
`i`, `getSectionCommitCount` returns the distance to the next annotated
index when one exists and `shas.length - i` otherwise; it returns 0 for
a sha with no (truthy) annotation; and on the 12-snapshot timeline with
annotated snapshots at indices 2, 5, 9 it returns 3, 4 and 3. -/
theorem sectionCommitCount_spec :
    (∀ (st : GitRepoState) (sha : String),
        GitRepo.hasAnnot st sha = false →
        GitRepo.getSectionCommitCount st sha = 0) ∧
    (∀ (st : GitRepoState) (sha : String) (i : Nat),
        GitRepo.hasAnnot st sha = true →
        st.shas[i]? = some sha →
        (∀ k : Nat, k < i → st.shas[k]? ≠ some sha) →
        ((∀ j : Nat, i < j → j < st.shas.length → annotAt st j = false) →
            GitRepo.getSectionCommitCount st sha = st.shas.length - i) ∧
        (∀ j : Nat, i < j → annotAt st j = true →
            (∀ k : Nat, i < k → k < j → annotAt st k = false) →
            GitRepo.getSectionCommitCount st sha = j - i)) ∧
    (GitRepo.getSectionCommitCount sectionExample "s02" = 3 ∧
     GitRepo.getSectionCommitCount sectionExample "s05" = 4 ∧
     GitRepo.getSectionCommitCount sectionExample "s09" = 3 ∧
     GitRepo.getSectionCommitCount sectionExample "s00" = 0) := by
  refine ⟨?_, ?_, by decide, by decide, by decide, by decide⟩
  · intro st sha hann
    simp [GitRepo.getSectionCommitCount, hann]
  · intro st sha i hann hget hfirst
    have hidx : jsIndexOf st.shas sha = some i := jsIndexOf_eq_some st.shas sha i hget hfirst
    constructor
    · intro hnone
      have hfind : findIdxFrom (fun s => GitRepo.hasAnnot st s) st.shas (i + 1) = none := by
        apply findIdxFrom_eq_none
        intro k hk hklen z hz
        have := hnone k (by omega) hklen
        simpa [annotAt, hz] using this
      simp [GitRepo.getSectionCommitCount, hann, hidx, hfind]
    · intro j hij hj hmin
      obtain ⟨y, hy, hyann⟩ : ∃ y, st.shas[j]? = some y ∧ GitRepo.hasAnnot st y = true := by
        unfold annotAt at hj
        rcases hjy : st.shas[j]? with _ | y
        · rw [hjy] at hj; simp at hj
        · rw [hjy] at hj; exact ⟨y, rfl, hj⟩
      have hfind : findIdxFrom (fun s => GitRepo.hasAnnot st s) st.shas (i + 1) = some j := by
        apply findIdxFrom_eq_some _ _ _ _ (by omega) y hy hyann
        intro k hk1 hk2 z hz
        have := hmin k (by omega) hk2
        simpa [annotAt, hz] using this
      simp [GitRepo.getSectionCommitCount, hann, hidx, hfind]

theorem sectionCommitCount_spec_witness :
    GitRepo.getSectionCommitCount sectionExample "s05" = 9 - 5 :=
  ((sectionCommitCount_spec.2.1 sectionExample "s05" 5 (by decide) (by decide)
      (by decide)).2 9 (by decide) (by decide)
    (by intro k h1 h2; interval_cases k <;> decide))

theorem pushedIds_append (a b : List JobQueue.QEvent) :
    JobQueue.pushedIds (a ++ b) = JobQueue.pushedIds a ++ JobQueue.pushedIds b := by
  induction a with
  | nil => rfl
  | cons e a ih => cases e <;> simp [JobQueue.pushedIds, ih]

theorem begunIds_append (a b : List JobQueue.QEvent) :
    JobQueue.begunIds (a ++ b) = JobQueue.begunIds a ++ JobQueue.begunIds b := by
  induction a with
  | nil => rfl
  | cons e a ih => cases e <;> simp [JobQueue.begunIds, ih]

theorem endedIds_append (a b : List JobQueue.QEvent) :
    JobQueue.endedIds (a ++ b) = JobQueue.endedIds a ++ JobQueue.endedIds b := by
  induction a with
  | nil => rfl
  | cons e a ih => cases e <;> simp [JobQueue.endedIds, ih]

theorem split_snoc_cases {α : Type} (pre post tr : List α) (e : α)
    (h : pre ++ post = tr ++ [e]) :
    (∃ post', pre ++ post' = tr) ∨ pre = tr ++ [e] := by
  cases post using List.reverseRecOn with
  | nil => right; simpa using h
  | append_singleton post' z =>
    left
    have h' : (pre ++ post') ++ [z] = tr ++ [e] := by
      simpa [List.append_assoc] using h
    exact ⟨post', (List.append_inj' h' rfl).1⟩

theorem len_bounds_of_eq_append (b e : List Nat) (x : Option Nat)
    (h : b = e ++ x.toList) : e.length ≤ b.length ∧ b.length ≤ e.length + 1 := by
  subst h
  cases x <;> simp [Option.toList]

/-- C2: in every reachable execution of a `JobQueue`, the begun job
bodies form a prefix of the pushed jobs in submission order (FIFO: the
queue invariant `pushed = begun ++ pending` holds), the completed bodies
form a prefix of the begun ones (`begun = ended ++ currently-executing`),
and at every point of the trace the number of begun bodies exceeds the
number of completed ones by at most one — at most one job body is
executing at any time. -/
theorem jobQueue_serial_fifo (s : JobQueue.QueueModel) (tr : List JobQueue.QEvent)
    (h : JobQueue.QueueReach s tr) :
    JobQueue.pushedIds tr = JobQueue.begunIds tr ++ s.jobs ∧
    JobQueue.begunIds tr = JobQueue.endedIds tr ++ s.executing.toList ∧
    (∀ pre post, pre ++ post = tr →
        (JobQueue.endedIds pre).length ≤ (JobQueue.begunIds pre).length ∧
        (JobQueue.begunIds pre).length ≤ (JobQueue.endedIds pre).length + 1) := by
  induction h with
  | init =>
    refine ⟨rfl, rfl, ?_⟩
    intro pre post hsplit
    have hpre : pre = [] := by
      cases pre with
      | nil => rfl
      | cons a t => simp at hsplit
    subst hpre
    simp [JobQueue.endedIds, JobQueue.begunIds]
  | push s tr id hr ih =>
    obtain ⟨ih1, ih2, ih3⟩ := ih
    have p1 : JobQueue.pushedIds (tr ++ [.push id]) =
        JobQueue.begunIds (tr ++ [.push id]) ++ (s.jobs ++ [id]) := by
      simp [pushedIds_append, begunIds_append,
        JobQueue.pushedIds, JobQueue.begunIds, ih1]
    have p2 : JobQueue.begunIds (tr ++ [.push id]) =
        JobQueue.endedIds (tr ++ [.push id]) ++ s.executing.toList := by
      simp [begunIds_append, endedIds_append,
        JobQueue.begunIds, JobQueue.endedIds, ih2]
    refine ⟨p1, p2, ?_⟩
    intro pre post hsplit
    rcases split_snoc_cases pre post tr _ hsplit with ⟨post', hpre⟩ | hpre
    · exact ih3 pre post' hpre
    · subst hpre
      exact len_bounds_of_eq_append _ _ _ p2
  | jobBegin s tr id rest hr hrun hexec hjobs ih =>
    obtain ⟨ih1, ih2, ih3⟩ := ih
    have p1 : JobQueue.pushedIds (tr ++ [.jobBegin id]) =
        JobQueue.begunIds (tr ++ [.jobBegin id]) ++ rest := by
      simp [pushedIds_append, begunIds_append,
        JobQueue.pushedIds, JobQueue.begunIds, ih1, hjobs]
    have p2 : JobQueue.begunIds (tr ++ [.jobBegin id]) =
        JobQueue.endedIds (tr ++ [.jobBegin id]) ++ (some id).toList := by
      rw [hexec] at ih2
      simp [begunIds_append, endedIds_append,
        JobQueue.begunIds, JobQueue.endedIds, ih2]
    refine ⟨p1, p2, ?_⟩
    intro pre post hsplit
    rcases split_snoc_cases pre post tr _ hsplit with ⟨post', hpre⟩ | hpre
    · exact ih3 pre post' hpre
    · subst hpre
      exact len_bounds_of_eq_append _ _ _ p2
  | jobEnd s tr id hr hexec ih =>
    obtain ⟨ih1, ih2, ih3⟩ := ih
    have p1 : JobQueue.pushedIds (tr ++ [.jobEnd id]) =
        JobQueue.begunIds (tr ++ [.jobEnd id]) ++ s.jobs := by
      simp [pushedIds_append, begunIds_append,
        JobQueue.pushedIds, JobQueue.begunIds, ih1]
    have p2 : JobQueue.begunIds (tr ++ [.jobEnd id]) =
        JobQueue.endedIds (tr ++ [.jobEnd id]) ++ (none : Option Nat).toList := by
      rw [hexec] at ih2
      simp [begunIds_append, endedIds_append,
        JobQueue.begunIds, JobQueue.endedIds, ih2]
    refine ⟨p1, p2, ?_⟩
    intro pre post hsplit
    rcases split_snoc_cases pre post tr _ hsplit with ⟨post', hpre⟩ | hpre
    · exact ih3 pre post' hpre
    · subst hpre
      exact len_bounds_of_eq_append _ _ _ p2
  | loopExit s tr hr hrun hexec hjobs ih =>
    obtain ⟨ih1, ih2, ih3⟩ := ih
    have p1 : JobQueue.pushedIds (tr ++ [.loopExit]) =
        JobQueue.begunIds (tr ++ [.loopExit]) ++ ([] : List Nat) := by
      rw [hjobs] at ih1
      simp [pushedIds_append, begunIds_append,
        JobQueue.pushedIds, JobQueue.begunIds, ih1]
    have p2 : JobQueue.begunIds (tr ++ [.loopExit]) =
        JobQueue.endedIds (tr ++ [.loopExit]) ++ (none : Option Nat).toList := by
      rw [hexec] at ih2
      simp [begunIds_append, endedIds_append,
        JobQueue.begunIds, JobQueue.endedIds, ih2]
    refine ⟨p1, p2, ?_⟩
    intro pre post hsplit
    rcases split_snoc_cases pre post tr _ hsplit with ⟨post', hpre⟩ | hpre
    · exact ih3 pre post' hpre
    · subst hpre
      exact len_bounds_of_eq_append _ _ _ p2

theorem qExampleReach : JobQueue.QueueReach ⟨[], false, none⟩ qExampleTrace := by
  have h0 := JobQueue.QueueReach.init
  have h1 := JobQueue.QueueReach.push _ _ 0 h0
  have h2 := JobQueue.QueueReach.jobBegin _ _ 0 [] h1 rfl rfl rfl
  have h3 := JobQueue.QueueReach.jobEnd _ _ 0 h2 rfl
  have h4 := JobQueue.QueueReach.push _ _ 1 h3
  have h5 := JobQueue.QueueReach.jobBegin _ _ 1 [] h4 rfl rfl rfl
  have h6 := JobQueue.QueueReach.jobEnd _ _ 1 h5 rfl
  have h7 := JobQueue.QueueReach.loopExit _ _ h6 rfl rfl rfl
  simpa [qExampleTrace, JobQueue.initQueue] using h7

theorem jobQueue_serial_fifo_witness :
    JobQueue.pushedIds qExampleTrace = JobQueue.begunIds qExampleTrace ++ ([] : List Nat) ∧
    JobQueue.begunIds qExampleTrace =
      JobQueue.endedIds qExampleTrace ++ (Option.toList (none : Option Nat)) ∧
    (∀ pre post, pre ++ post = qExampleTrace →
        (JobQueue.endedIds pre).length ≤ (JobQueue.begunIds pre).length ∧
        (JobQueue.begunIds pre).length ≤ (JobQueue.endedIds pre).length + 1) :=
  jobQueue_serial_fifo ⟨[], false, none⟩ qExampleTrace qExampleReach

theorem jsToLowerChar_slug (c : Char) (h : GitRepo.isSlugChar c = true) :
    GitRepo.jsToLowerChar c = c := by
  unfold GitRepo.isSlugChar at h
  simp only [Bool.or_eq_true, Bool.and_eq_true, decide_eq_true_eq] at h
  unfold GitRepo.jsToLowerChar
  rw [if_neg (by omega)]

theorem splitOnPred_clean (p : Char → Bool) (cs : List Char) :
    ∀ part ∈ GitRepo.splitOnPred p cs, ∀ c ∈ part, p c = false := by
  induction cs with
  | nil =>
    intro part hp c hc
    simp [GitRepo.splitOnPred] at hp
    subst hp
    simp at hc
  | cons a t ih =>
    intro part hp c hc
    by_cases hpa : p a
    · simp [GitRepo.splitOnPred, hpa] at hp
      rcases hp with hp | hp
      · subst hp; simp at hc
      · exact ih part hp c hc
    · rcases hsp : GitRepo.splitOnPred p t with _ | ⟨r, rs⟩
      · simp [GitRepo.splitOnPred, hpa, hsp] at hp
        subst hp
        simp at hc
        subst hc
        simpa using hpa
      · simp [GitRepo.splitOnPred, hpa, hsp] at hp
        rcases hp with hp | hp
        · subst hp
          rcases List.mem_cons.mp hc with he | ht
          · subst he; simpa using hpa
          · exact ih r (by rw [hsp]; exact List.mem_cons_self r rs) c ht
        · exact ih part (by rw [hsp]; exact List.mem_cons_of_mem r hp) c hc

theorem splitOnPred_ne_nil (p : Char → Bool) (cs : List Char) :
    GitRepo.splitOnPred p cs ≠ [] := by
  cases cs with
  | nil => simp [GitRepo.splitOnPred]
  | cons a t =>
    by_cases hpa : p a
    · simp [GitRepo.splitOnPred, hpa]
    · rcases hsp : GitRepo.splitOnPred p t with _ | ⟨r, rs⟩
      · simp [GitRepo.splitOnPred, hpa, hsp]
      · simp [GitRepo.splitOnPred, hpa, hsp]

theorem splitOnPred_append_clean (p : Char → Bool) (a cs : List Char)
    (r : List Char) (rs : List (List Char))
    (ha : ∀ c ∈ a, p c = false) (hcs : GitRepo.splitOnPred p cs = r :: rs) :
    GitRepo.splitOnPred p (a ++ cs) = (a ++ r) :: rs := by
  induction a with
  | nil => simpa using hcs
  | cons x xs ih =>
    have hx : p x = false := ha x (List.mem_cons_self _ _)
    have ih' := ih (fun c hc => ha c (List.mem_cons_of_mem _ hc))
    simp [GitRepo.splitOnPred, hx, ih']

theorem splitOnPred_clean_single (p : Char → Bool) (a : List Char)
    (ha : ∀ c ∈ a, p c = false) : GitRepo.splitOnPred p a = [a] := by
  have h := splitOnPred_append_clean p a [] [] [] ha rfl
  simpa using h

theorem splitOnPred_joinHyphen (p : Char → Bool) (parts : List (List Char))
    (hp : p '-' = true)
    (h : ∀ part ∈ parts, part ≠ [] ∧ ∀ c ∈ part, p c = false) :
    (GitRepo.splitOnPred p (GitRepo.joinHyphen parts)).filter (fun part => part ≠ []) =
      parts := by
  induction parts with
  | nil => simp [GitRepo.joinHyphen, GitRepo.splitOnPred]
  | cons a rest ih =>
    obtain ⟨hne, hcl⟩ := h a (List.mem_cons_self _ _)
    cases rest with
    | nil =>
      rw [show GitRepo.joinHyphen [a] = a from rfl]
      rw [splitOnPred_clean_single p a hcl]
      simp [hne]
    | cons b rest' =>
      have ih' := ih (fun part hpart => h part (List.mem_cons_of_mem _ hpart))
      obtain ⟨r, rs, hsp⟩ :
          ∃ r rs, GitRepo.splitOnPred p (GitRepo.joinHyphen (b :: rest')) = r :: rs := by
        rcases hx : GitRepo.splitOnPred p (GitRepo.joinHyphen (b :: rest')) with _ | ⟨r, rs⟩
        · exact absurd hx (splitOnPred_ne_nil p _)
        · exact ⟨r, rs, rfl⟩
      have hbar : GitRepo.splitOnPred p ('-' :: GitRepo.joinHyphen (b :: rest')) =
          [] :: r :: rs := by
        simp [GitRepo.splitOnPred, hp, hsp]
      have happ := splitOnPred_append_clean p a ('-' :: GitRepo.joinHyphen (b :: rest'))
        [] (r :: rs) hcl hbar
      rw [show GitRepo.joinHyphen (a :: b :: rest') =
            a ++ '-' :: GitRepo.joinHyphen (b :: rest') from rfl]
      rw [happ]
      rw [hsp] at ih'
      simp [hne]
      simpa using ih'

theorem map_lower_clean (a : List Char) (h : ∀ c ∈ a, GitRepo.isSlugChar c = true) :
    a.map GitRepo.jsToLowerChar = a := by
  induction a with
  | nil => rfl
  | cons x xs ih =>
    have hx := jsToLowerChar_slug x (h x (List.mem_cons_self _ _))
    have ih' := ih (fun c hc => h c (List.mem_cons_of_mem _ hc))
    simp [hx, ih']

theorem map_lower_joinHyphen (parts : List (List Char))
    (h : ∀ part ∈ parts, ∀ c ∈ part, GitRepo.isSlugChar c = true) :
    (GitRepo.joinHyphen parts).map GitRepo.jsToLowerChar = GitRepo.joinHyphen parts := by
  induction parts with
  | nil => rfl
  | cons a rest ih =>
    cases rest with
    | nil =>
      rw [show GitRepo.joinHyphen [a] = a from rfl]
      exact map_lower_clean a (h a (List.mem_cons_self _ _))
    | cons b rest' =>
      have ih' := ih (fun part hpart => h part (List.mem_cons_of_mem _ hpart))
      have ha := map_lower_clean a (h a (List.mem_cons_self _ _))
      have hdash : GitRepo.jsToLowerChar '-' = '-' := by decide
      rw [show GitRepo.joinHyphen (a :: b :: rest') =
            a ++ '-' :: GitRepo.joinHyphen (b :: rest') from rfl]
      simp [ha, hdash, ih']

/-- C10: `createSlug` is idempotent — every slug is a fixed point, since
a slug consists only of lowercase-alphanumeric runs joined by single
hyphens, which re-lowercase to themselves and re-split into the same
runs. -/
theorem createSlug_idempotent (s : String) :
    GitRepo.createSlug (GitRepo.createSlug s) = GitRepo.createSlug s := by
  simp only [GitRepo.createSlug]
  set p : Char → Bool := fun c => !GitRepo.isSlugChar c with hpdef
  set parts : List (List Char) :=
    (GitRepo.splitOnPred p (s.data.map GitRepo.jsToLowerChar)).filter
      (fun part => part ≠ []) with hparts
  show String.mk (GitRepo.joinHyphen
      ((GitRepo.splitOnPred p
        ((GitRepo.joinHyphen parts).map GitRepo.jsToLowerChar)).filter
        (fun part => part ≠ []))) =
    String.mk (GitRepo.joinHyphen parts)
  have hclean : ∀ part ∈ parts, part ≠ [] ∧ ∀ c ∈ part, p c = false := by
    intro part hpart
    have hmem := List.mem_of_mem_filter hpart
    have hne : part ≠ [] := by
      have := List.of_mem_filter hpart
      simpa using this
    exact ⟨hne, splitOnPred_clean p _ part hmem⟩
  have hslug : ∀ part ∈ parts, ∀ c ∈ part, GitRepo.isSlugChar c = true := by
    intro part hpart c hc
    have hf := (hclean part hpart).2 c hc
    rw [hpdef] at hf
    simpa using hf
  rw [map_lower_joinHyphen parts hslug]
  rw [splitOnPred_joinHyphen p parts (by rw [hpdef]; decide) hclean]
